import Mathlib

/-!
Shallow embedding of the Cleen pipeline execution engine
(`cleen/core/base.py`, `cleen/pipeline/executor.py`, `cleen/pipeline/builder.py`).

Datasets are modelled as Lean lists of rows (`List Row`): pandas operations the
core uses are row-count (`List.length`), positional slicing (`List.take` /
`List.drop`), concatenation (`List.append` / flatten) and boolean-mask row
selection.  Python exceptions are modelled with `Except String`; an exception
type that matters to a claim gets its own constructor in `RunErr`.
Rationals (`ℚ`) stand for Python floats in the error-rate arithmetic, where the
source only ever divides, subtracts and compares.
-/

namespace Cleen

/-- `cleen/core/base.py`: a `PipelineStep` wraps either a `BaseProcessor`
(`process : DataFrame → DataFrame`) or a `BaseValidator`
(`validate : DataFrame → boolean mask`).  Either unit may raise. -/
inductive Proc (Row : Type) where
  | processor (process : List Row → Except String (List Row))
  | validator (validate : List Row → Except String (List Bool))

structure PipelineStep (Row : Type) where
  proc : Proc Row
  name : String := ""

/-- Pandas `df[mask]` for a positional boolean mask of the same length:
keep exactly the rows whose mask entry is `true`, in order. -/
def maskSelect {Row : Type} : List Row → List Bool → List Row
  | [], _ => []
  | _, [] => []
  | r :: rs, b :: bs => if b then r :: maskSelect rs bs else maskSelect rs bs

/-- `PipelineStep.execute`: `process(df)` for a processor, `df[validate(df)]`
for a validator.  Pandas raises when a positional boolean mask's length
differs from the frame's row count. -/
def PipelineStep.execute {Row : Type} (s : PipelineStep Row) (df : List Row) :
    Except String (List Row) :=
  match s.proc with
  | .processor f => f df
  | .validator v =>
    (v df).bind fun mask =>
      if mask.length = df.length then .ok (maskSelect df mask)
      else .error "IndexError: boolean mask length mismatch"

/-- `cleen/pipeline/executor.py`, `ParallelExecutor` state fixed at
construction (`memory_limit` already converted to bytes). -/
structure ParallelExecutor where
  partitions : ℕ
  memory_limit : ℕ
  use_disk : Bool

/-- `ParallelExecutor.__init__` followed by `_validate_config`: reject the
configuration when `memory_limit * partitions` exceeds total system memory
and `use_disk` is off.  `total_memory` models `psutil.virtual_memory().total`. -/
def ParallelExecutor.init (partitions memory_limit : ℕ) (use_disk : Bool)
    (total_memory : ℕ) : Except String ParallelExecutor :=
  if memory_limit * partitions > total_memory ∧ use_disk = false then
    .error "Required memory exceeds system memory. Enable use_disk=True or reduce partitions."
  else
    .ok ⟨partitions, memory_limit, use_disk⟩

/-- `ParallelExecutor._process_partition`: run every step in order on the
partition; the first exception propagates (the `except` clause re-raises). -/
def processPartition {Row : Type} (df : List Row) :
    List (PipelineStep Row) → Except String (List Row)
  | [] => .ok df
  | s :: rest =>
    match s.execute df with
    | .ok r => processPartition r rest
    | .error e => .error e

/-- Section sizes of `np.array_split(range n, k)`: the first `n % k` sections
have `n / k + 1` elements, the remaining ones `n / k`. -/
def arraySplitSizes (n k : ℕ) : List ℕ :=
  (List.range k).map fun i => if i < n % k then n / k + 1 else n / k

/-- Cut a list into consecutive chunks of the given sizes. -/
def splitBySizes {Row : Type} : List Row → List ℕ → List (List Row)
  | _, [] => []
  | df, s :: ss => df.take s :: splitBySizes (df.drop s) ss

/-- `np.array_split(range(len(df)), partitions)` followed by
`df.iloc[idx]` for each index block: `k` consecutive positional slices. -/
def arraySplit {Row : Type} (df : List Row) (k : ℕ) : List (List Row) :=
  splitBySizes df (arraySplitSizes df.length k)

/-- Collecting `future.result()` in submission order: the first failing
partition's exception propagates, otherwise all results in partition order. -/
def collectResults {Row : Type} :
    List (Except String (List Row)) → Except String (List (List Row))
  | [] => .ok []
  | .ok r :: rest => (collectResults rest).map (r :: ·)
  | .error e :: _ => .error e

/-- `ParallelExecutor.execute`: single-threaded for `partitions ≤ 1`;
otherwise split, run each partition, and on full success concatenate in
partition order (`pd.concat`).  Any failure inside the parallel block falls
back to one single-threaded pass over the whole dataset when `use_disk` is
set, and propagates otherwise. -/
def ParallelExecutor.execute {Row : Type} (cfg : ParallelExecutor)
    (df : List Row) (steps : List (PipelineStep Row)) : Except String (List Row) :=
  if cfg.partitions ≤ 1 then processPartition df steps
  else
    match collectResults ((arraySplit df cfg.partitions).map
        fun p => processPartition p steps) with
    | .ok results => .ok results.flatten
    | .error e =>
      if cfg.use_disk then processPartition df steps else .error e

/-- `cleen/pipeline/builder.py`: incremental-window configuration
`{checkpoint_column, lookback_days}`.  Timestamps are modelled as integers
(days); `checkpoint` reads the checkpoint column of a row. -/
structure IncrementalConfig (Row : Type) where
  checkpoint : Row → ℤ
  lookback_days : ℤ

structure Pipeline (Row : Type) where
  steps : List (PipelineStep Row)
  executor : ParallelExecutor
  metrics : Bool
  incremental_config : Option (IncrementalConfig Row)

/-- Exceptions that can escape `Pipeline.run`. -/
inductive RunErr where
  | stepError (e : String)
  | errorRateExceeded (observed allowed : ℚ)
  | zeroDivisionError
  | unboundLocalError
  deriving DecidableEq

/-- The incremental-window restriction applied at the top of `Pipeline.run`:
`df = df[df[checkpoint_col] >= pd.Timestamp.now() - pd.Timedelta(days=lookback_days)]`
when configured, the input unchanged otherwise. -/
def Pipeline.windowed {Row : Type} (p : Pipeline Row) (now : ℤ) (df0 : List Row) :
    List Row :=
  match p.incremental_config with
  | none => df0
  | some cfg => df0.filter fun r => now - cfg.lookback_days ≤ cfg.checkpoint r

/-- `Pipeline.run(df, error_handling)`.  Returns the Python outcome paired
with the list of `metrics.collect(df, result)` invocations made by the
`finally` block, in order.

Translated control flow:
* incremental window: `df = df[df[checkpoint_col] >= now - lookback_days]`;
* `result = self.executor.execute(df, self.steps)`;
* `error_handling.get("max_error_rate")` is a Python truthiness test, so the
  gate only fires for a present, nonzero value; `(len(df) - len(result)) /
  len(df)` raises `ZeroDivisionError` on an empty windowed input;
* the `finally` block evaluates `self.metrics.collect(df, result)` when a
  sink is configured.  If the executor raised, the local `result` was never
  assigned, so that evaluation raises `UnboundLocalError` (replacing the
  pending exception) and `collect` is never invoked. -/
def Pipeline.run {Row : Type} (p : Pipeline Row) (now : ℤ) (df0 : List Row)
    (max_error_rate : Option ℚ) :
    Except RunErr (List Row) × List (List Row × List Row) :=
  let df := p.windowed now df0
  match p.executor.execute df p.steps with
  | .error e =>
    if p.metrics then (.error .unboundLocalError, [])
    else (.error (.stepError e), [])
  | .ok result =>
    let body : Except RunErr (List Row) :=
      match max_error_rate with
      | none => .ok result
      | some mer =>
        if mer = 0 then .ok result
        else if df.length = 0 then .error .zeroDivisionError
        else
          let rate : ℚ := ((df.length : ℚ) - (result.length : ℚ)) / (df.length : ℚ)
          if rate > mer then .error (.errorRateExceeded rate mer) else .ok result
    (body, if p.metrics then [(df, result)] else [])

instance {ε α : Type} [DecidableEq ε] [DecidableEq α] : DecidableEq (Except ε α) := fun x y =>
  match x, y with
  | .ok a, .ok b =>
    if h : a = b then .isTrue (by rw [h]) else .isFalse (by simp [h])
  | .error e, .error f =>
    if h : e = f then .isTrue (by rw [h]) else .isFalse (by simp [h])
  | .ok _, .error _ => .isFalse (by simp)
  | .error _, .ok _ => .isFalse (by simp)

/-! ### Concrete fixtures used to instantiate the general theorems -/

/-- A step whose processor always raises (e.g. a transform hitting bad data). -/
def failStep : PipelineStep ℕ := ⟨.processor fun _ => .error "step failure", "FailStep"⟩

/-- A pipeline with a metrics sink configured and one always-failing step. -/
def metricsPipeline : Pipeline ℕ := ⟨[failStep], ⟨1, 0, false⟩, true, none⟩

/-- A filter step keeping rows with value below 80 (drops 20 of 100 rows of
`List.range 100`). -/
def filterStep : PipelineStep ℕ :=
  ⟨.validator fun d => .ok (d.map fun x => decide (x < 80)), "FilterStep"⟩

/-- Single-partition pipeline around `filterStep`, no metrics, no window. -/
def gatePipeline : Pipeline ℕ := ⟨[filterStep], ⟨1, 0, false⟩, false, none⟩

/-- A step that deterministically fails exactly on single-row inputs, so it
fails in one partition of `[1, 2, 3]` split two ways but succeeds on the
whole dataset. -/
def lenStep : PipelineStep ℕ :=
  ⟨.processor fun d => if d.length = 1 then .error "boom" else .ok d, "LenStep"⟩

/-- The identity transform step. -/
def idStep : PipelineStep ℕ := ⟨.processor fun d => .ok d, "Identity"⟩

/-- Pipeline with an incremental window: checkpoint column is the row itself,
lookback 30 days. -/
def incPipeline : Pipeline ℤ := ⟨[], ⟨1, 0, false⟩, false, some ⟨fun r => r, 30⟩⟩

/-- The same pipeline without the incremental window. -/
def noIncPipeline : Pipeline ℤ := ⟨[], ⟨1, 0, false⟩, false, none⟩

/-- A pipeline with no steps, used for the empty-input run. -/
def emptyPipeline : Pipeline ℕ := ⟨[], ⟨1, 0, false⟩, false, none⟩

/-! ### Helper lemmas about the partitioning arithmetic -/

lemma sum_map_if_lt (q m : ℕ) :
    ∀ k, m ≤ k →
      (((List.range k).map fun i => if i < m then q + 1 else q).sum = k * q + m) := by
  intro k
  induction k with
  | zero => intro h; interval_cases m; simp
  | succ k ih =>
    intro h
    rw [List.range_succ, List.map_append, List.sum_append]
    rcases Nat.lt_or_ge k m with hk | hk
    · have hm : m = k + 1 := by omega
      subst hm
      have hconst : ((List.range k).map fun i => if i < k + 1 then q + 1 else q)
          = (List.range k).map fun _ => q + 1 := by
        apply List.map_congr_left
        intro a ha
        simp only [List.mem_range] at ha
        simp [Nat.lt_succ_of_lt ha]
      rw [hconst]
      simp [List.map_const', mul_comm]
      ring
    · rw [ih hk]
      have : ¬ k < m := by omega
      simp [this]
      ring

lemma arraySplitSizes_length (n k : ℕ) : (arraySplitSizes n k).length = k := by
  simp [arraySplitSizes]

lemma arraySplitSizes_sum (n k : ℕ) (hk : 0 < k) : (arraySplitSizes n k).sum = n := by
  unfold arraySplitSizes
  have hmod : n % k ≤ k := Nat.le_of_lt (Nat.mod_lt _ hk)
  rw [sum_map_if_lt (n / k) (n % k) k hmod]
  have := Nat.div_add_mod n k
  omega

lemma splitBySizes_length {Row : Type} (sizes : List ℕ) (df : List Row) :
    (splitBySizes df sizes).length = sizes.length := by
  induction sizes generalizing df with
  | nil => simp [splitBySizes]
  | cons s ss ih => simp [splitBySizes, ih]

lemma splitBySizes_flatten {Row : Type} (sizes : List ℕ) (df : List Row) :
    (splitBySizes df sizes).flatten = df.take sizes.sum := by
  induction sizes generalizing df with
  | nil => simp [splitBySizes]
  | cons s ss ih =>
    simp only [splitBySizes, List.flatten_cons, ih, List.sum_cons]
    rw [List.take_add]

lemma arraySplit_length {Row : Type} (df : List Row) (k : ℕ) :
    (arraySplit df k).length = k := by
  rw [arraySplit, splitBySizes_length, arraySplitSizes_length]

lemma arraySplit_flatten {Row : Type} (df : List Row) (k : ℕ) (hk : 0 < k) :
    (arraySplit df k).flatten = df := by
  rw [arraySplit, splitBySizes_flatten, arraySplitSizes_sum _ _ hk, List.take_length]

lemma range'_split (a s t : ℕ) :
    List.range' a (s + t) = List.range' a s ++ List.range' (a + s) t := by
  have h := List.range'_append a s t 1
  simp only [one_mul] at h
  rw [Nat.add_comm s t]
  exact h.symm

lemma splitBySizes_range' (sizes : List ℕ) :
    ∀ a : ℕ, splitBySizes (List.range' a sizes.sum) sizes =
      (List.range sizes.length).map fun i =>
        List.range' (a + ((sizes.take i).sum)) (sizes.getD i 0) := by
  induction sizes with
  | nil => intro a; simp [splitBySizes]
  | cons s ss ih =>
    intro a
    have hsplit : List.range' a (s + ss.sum) =
        List.range' a s ++ List.range' (a + s) ss.sum := range'_split a s ss.sum
    have htake : (List.range' a (s + ss.sum)).take s = List.range' a s := by
      rw [hsplit]
      exact List.take_left' (List.length_range' a 1 s)
    have hdrop : (List.range' a (s + ss.sum)).drop s = List.range' (a + s) ss.sum := by
      rw [hsplit]
      exact List.drop_left' (List.length_range' a 1 s)
    simp only [List.sum_cons, splitBySizes, htake, hdrop, ih (a + s)]
    rw [List.length_cons, List.range_succ_eq_map, List.map_cons, List.map_map]
    congr 1
    · simp
      intro j hj
      right
      omega

lemma arraySplit_range (n k : ℕ) (hk : 0 < k) :
    arraySplit (List.range n) k = (List.range k).map fun i =>
      List.range' (((arraySplitSizes n k).take i).sum) ((arraySplitSizes n k).getD i 0) := by
  have h1 : (List.range n).length = n := List.length_range n
  rw [arraySplit, h1, List.range_eq_range']
  have h2 : n = (arraySplitSizes n k).sum := (arraySplitSizes_sum n k hk).symm
  calc splitBySizes (List.range' 0 n) (arraySplitSizes n k)
      = splitBySizes (List.range' 0 (arraySplitSizes n k).sum) (arraySplitSizes n k) := by
        rw [← h2]
    _ = (List.range (arraySplitSizes n k).length).map fun i =>
          List.range' (0 + (((arraySplitSizes n k).take i).sum))
            ((arraySplitSizes n k).getD i 0) := splitBySizes_range' _ 0
    _ = _ := by
        rw [arraySplitSizes_length]
        apply List.map_congr_left
        intro i _
        rw [Nat.zero_add]

lemma arraySplitSizes_getD (n k i : ℕ) (h : i < k) :
    (arraySplitSizes n k).getD i 0 = if i < n % k then n / k + 1 else n / k := by
  unfold arraySplitSizes
  rw [List.getD_eq_getElem?_getD, List.getElem?_map, List.getElem?_range h]
  rfl

/-! ### Helper lemmas about result collection and step execution -/

lemma collectResults_map_ok {Row : Type} (rs : List (List Row)) :
    collectResults (rs.map Except.ok) = .ok rs := by
  induction rs with
  | nil => rfl
  | cons r rest ih => simp [collectResults, ih, Except.map]

lemma collectResults_error {Row : Type} (l : List (Except String (List Row)))
    (h : ∃ x ∈ l, ∃ e, x = .error e) :
    ∃ e, collectResults l = .error e ∧ Except.error e ∈ l := by
  induction l with
  | nil => simp at h
  | cons x rest ih =>
    match x with
    | .error e => exact ⟨e, rfl, List.mem_cons_self _ _⟩
    | .ok r =>
      obtain ⟨y, hy, e, he⟩ := h
      rcases List.mem_cons.mp hy with rfl | hmem
      · exact absurd he (by simp)
      · obtain ⟨e', he', hmem'⟩ := ih ⟨y, hmem, e, he⟩
        refine ⟨e', ?_, List.mem_cons_of_mem _ hmem'⟩
        simp [collectResults, he', Except.map]

lemma processPartition_id {Row : Type} (steps : List (PipelineStep Row))
    (hid : ∀ s ∈ steps, ∀ d : List Row, s.execute d = .ok d) :
    ∀ df : List Row, processPartition df steps = .ok df := by
  induction steps with
  | nil => intro df; rfl
  | cons s rest ih =>
    intro df
    have h1 : s.execute df = .ok df := hid s (List.mem_cons_self _ _) df
    simp only [processPartition, h1]
    exact ih (fun t ht d => hid t (List.mem_cons_of_mem _ ht) d) df

lemma maskSelect_eq_zip_filter {Row : Type} :
    ∀ (df : List Row) (mask : List Bool),
      maskSelect df mask = ((df.zip mask).filter fun rb => rb.2).map fun rb => rb.1 := by
  intro df
  induction df with
  | nil => intro mask; simp [maskSelect]
  | cons r rs ih =>
    intro mask
    match mask with
    | [] => simp [maskSelect]
    | b :: bs =>
      cases b <;> simp [maskSelect, List.filter_cons, ih bs]

lemma maskSelect_sublist {Row : Type} :
    ∀ (df : List Row) (mask : List Bool), List.Sublist (maskSelect df mask) df := by
  intro df
  induction df with
  | nil => intro mask; simp [maskSelect]
  | cons r rs ih =>
    intro mask
    match mask with
    | [] => simp [maskSelect]
    | b :: bs =>
      cases b with
      | false =>
        simpa [maskSelect] using List.Sublist.cons r (ih bs)
      | true =>
        simpa [maskSelect] using List.Sublist.cons₂ r (ih bs)

lemma maskSelect_length_count {Row : Type} :
    ∀ (df : List Row) (mask : List Bool), mask.length = df.length →
      (maskSelect df mask).length = mask.count true := by
  intro df
  induction df with
  | nil =>
    intro mask h
    match mask with
    | [] => rfl
  | cons r rs ih =>
    intro mask h
    match mask with
    | b :: bs =>
      have hlen : bs.length = rs.length := by simpa using h
      cases b <;> simp [maskSelect, List.count_cons, ih bs hlen]

lemma maskSelect_rowwise {Row : Type} (p : Row → Bool) :
    ∀ df : List Row, maskSelect df (df.map p) = df.filter p := by
  intro df
  induction df with
  | nil => rfl
  | cons r rs ih =>
    by_cases hp : p r <;> simp [maskSelect, List.filter_cons, hp, ih]

/-! ### Claim theorems -/

/-- C1: the claim says `metrics.collect` is invoked exactly once on every exit
path of `Pipeline.run`, including when a step raises inside the executor.  The
code violates this: with a metrics sink configured and a failing step, the
`finally` block evaluates the never-assigned local `result`, so the run ends
in `UnboundLocalError` and the list of `collect` invocations is empty — the
sink is not called at all on that exit path. -/
theorem metrics_collect_skipped_on_step_failure :
    metricsPipeline.run 0 [1, 2, 3] none = (.error .unboundLocalError, []) := rfl

/-- C5 counterexample: `np.array_split(range 3, 2)` yields `[[0, 1], [2]]` —
the first slice takes the extra row, so the last slice has 1 row, not the
`⌊3/2⌋ + 3 % 2 = 2` rows the claim's "last slice absorbs the remainder"
shape demands. -/
theorem arraySplit_last_not_remainder :
    arraySplit (List.range 3) 2 = [[0, 1], [2]] ∧
    ((arraySplit (List.range 3) 2).getLastD []).length ≠ 3 / 2 + 3 % 2 := by
  refine ⟨by decide, by decide⟩

/-- C5 (amended): `execute` splits the row indices into exactly `k` contiguous
slices, where the first `n % k` slices have `n / k + 1` rows and the rest
`n / k` rows; the slices are pairwise disjoint and their concatenation in
partition order is the full input index range. -/
theorem arraySplit_partitioning (n k : ℕ) (hk : 1 < k) :
    (arraySplit (List.range n) k).length = k ∧
    arraySplit (List.range n) k = ((List.range k).map fun i =>
      List.range' (((arraySplitSizes n k).take i).sum)
        (if i < n % k then n / k + 1 else n / k)) ∧
    (arraySplit (List.range n) k).flatten = List.range n ∧
    List.Pairwise List.Disjoint (arraySplit (List.range n) k) := by
  have hk0 : 0 < k := by omega
  refine ⟨arraySplit_length _ _, ?_, arraySplit_flatten _ _ hk0, ?_⟩
  · rw [arraySplit_range n k hk0]
    apply List.map_congr_left
    intro i hi
    rw [arraySplitSizes_getD n k i (List.mem_range.mp hi)]
  · have hnodup : (arraySplit (List.range n) k).flatten.Nodup := by
      rw [arraySplit_flatten _ _ hk0]
      exact List.nodup_range n
    exact (List.nodup_flatten.mp hnodup).2

/-- C5 witness: the amended partition shape at `n = 5`, `k = 2`. -/
theorem arraySplit_partitioning_witness :
    (arraySplit (List.range 5) 2).length = 2 ∧
    arraySplit (List.range 5) 2 = ((List.range 2).map fun i =>
      List.range' (((arraySplitSizes 5 2).take i).sum)
        (if i < 5 % 2 then 5 / 2 + 1 else 5 / 2)) ∧
    (arraySplit (List.range 5) 2).flatten = List.range 5 ∧
    List.Pairwise List.Disjoint (arraySplit (List.range 5) 2) :=
  arraySplit_partitioning 5 2 (by norm_num)

/-- C6: construction (`__init__` + `_validate_config`) fails with an error
exactly when `memory_limit * partitions` exceeds total system memory with
`use_disk` off, and succeeds otherwise; and `execute` never re-reads the
memory budget — its result is independent of the configured memory limit
(total system memory is not even an input of `execute`). -/
theorem construction_guard (Row : Type) (partitions memory_limit : ℕ)
    (use_disk : Bool) (total_memory : ℕ) :
    ((∃ e, ParallelExecutor.init partitions memory_limit use_disk total_memory
        = .error e) ↔
      memory_limit * partitions > total_memory ∧ use_disk = false) ∧
    (∀ (memory_limit' : ℕ) (df : List Row) (steps : List (PipelineStep Row)),
      ParallelExecutor.execute ⟨partitions, memory_limit, use_disk⟩ df steps =
        ParallelExecutor.execute ⟨partitions, memory_limit', use_disk⟩ df steps) := by
  constructor
  · unfold ParallelExecutor.init
    split
    · rename_i h
      exact ⟨fun _ => h, fun _ => ⟨_, rfl⟩⟩
    · rename_i h
      simp only [iff_false_intro h, iff_false]
      intro ⟨e, he⟩
      exact Except.noConfusion he
  · intro memory_limit' df steps
    rfl

/-- C4: with more than one partition, identity steps make `execute` return the
input dataset unchanged (P1); and in general, whenever every partition task
succeeds, `execute` returns the concatenation of the per-partition results in
original partition index order. -/
theorem identity_steps_roundtrip (Row : Type) (k m : ℕ) (d : Bool)
    (df : List Row) (steps : List (PipelineStep Row)) (hk : 1 < k) :
    ((∀ s ∈ steps, ∀ x : List Row, s.execute x = .ok x) →
      ParallelExecutor.execute ⟨k, m, d⟩ df steps = .ok df) ∧
    (∀ rs : List (List Row),
      ((arraySplit df k).map fun p => processPartition p steps) = rs.map Except.ok →
      ParallelExecutor.execute ⟨k, m, d⟩ df steps = .ok rs.flatten) := by
  have hgt : ¬ k ≤ 1 := by omega
  have hgen : ∀ rs : List (List Row),
      ((arraySplit df k).map fun p => processPartition p steps) = rs.map Except.ok →
      ParallelExecutor.execute ⟨k, m, d⟩ df steps = .ok rs.flatten := by
    intro rs hrs
    simp only [ParallelExecutor.execute, hgt, if_false]
    rw [hrs, collectResults_map_ok]
  refine ⟨?_, hgen⟩
  intro hid
  have hmap : ((arraySplit df k).map fun p => processPartition p steps)
      = (arraySplit df k).map Except.ok :=
    List.map_congr_left fun p _ => processPartition_id steps hid p
  have := hgen (arraySplit df k) hmap
  rwa [arraySplit_flatten _ _ (by omega : 0 < k)] at this

/-- C4 witness: two partitions, one identity step, on `[1, 2, 3]`. -/
theorem identity_steps_roundtrip_witness :
    ParallelExecutor.execute ⟨2, 0, false⟩ [1, 2, 3] [idStep] = .ok [1, 2, 3] :=
  (identity_steps_roundtrip ℕ 2 0 false [1, 2, 3] [idStep] (by norm_num)).1
    (by intro s hs x
        simp only [List.mem_singleton] at hs
        subst hs
        rfl)

/-- C3: with more than one partition and some partition task failing, `execute`
discards the parallel results and equals one single-threaded pass over the
whole dataset when `use_disk` is set, and propagates a failure (one of the
partitions' errors, producing no result) otherwise. -/
theorem parallel_failure_fallback (Row : Type) (k m : ℕ) (df : List Row)
    (steps : List (PipelineStep Row)) (hk : 1 < k)
    (hfail : ∃ part ∈ arraySplit df k, ∃ e, processPartition part steps = .error e) :
    (ParallelExecutor.execute ⟨k, m, true⟩ df steps = processPartition df steps) ∧
    (∃ e, ParallelExecutor.execute ⟨k, m, false⟩ df steps = .error e) := by
  obtain ⟨part, hmem, e, he⟩ := hfail
  have hx : ∃ x ∈ (arraySplit df k).map fun p => processPartition p steps,
      ∃ e, x = .error e :=
    ⟨processPartition part steps, List.mem_map_of_mem _ hmem, e, he⟩
  obtain ⟨e', he', _⟩ := collectResults_error _ hx
  have hgt : ¬ k ≤ 1 := by omega
  constructor
  · simp only [ParallelExecutor.execute, hgt, if_false, he']
    simp
  · refine ⟨e', ?_⟩
    simp only [ParallelExecutor.execute, hgt, if_false, he']
    simp

/-- C3 witness: `lenStep` fails on the one-row partition of `[1, 2, 3]` split
two ways; with `use_disk` the fallback single-threaded pass succeeds on the
whole dataset, without it the failure propagates. -/
theorem parallel_failure_fallback_witness :
    (ParallelExecutor.execute ⟨2, 0, true⟩ [1, 2, 3] [lenStep]
        = processPartition [1, 2, 3] [lenStep] ∧
      ParallelExecutor.execute ⟨2, 0, true⟩ [1, 2, 3] [lenStep] = .ok [1, 2, 3]) ∧
    (∃ e, ParallelExecutor.execute ⟨2, 0, false⟩ [1, 2, 3] [lenStep] = .error e) := by
  have h := parallel_failure_fallback ℕ 2 0 [1, 2, 3] [lenStep] (by norm_num)
    ⟨[3], by decide, "boom", rfl⟩
  refine ⟨⟨h.1, ?_⟩, h.2⟩
  rw [h.1]
  rfl

/-- C7: a step wrapping a transform unit returns the unit's output directly;
a step wrapping a filter unit whose mask has the input's length returns the
input restricted to exactly the rows whose mask entry is true (the projection
of the row/mask zip), a subsequence of the input (row order preserved) whose
length never exceeds the input's. -/
theorem step_execute_contract (Row : Type) (nm : String) (df : List Row) :
    (∀ f : List Row → Except String (List Row),
      PipelineStep.execute ⟨.processor f, nm⟩ df = f df) ∧
    (∀ (v : List Row → Except String (List Bool)) (mask : List Bool),
      v df = .ok mask → mask.length = df.length →
      PipelineStep.execute ⟨.validator v, nm⟩ df =
        .ok (((df.zip mask).filter fun rb => rb.2).map fun rb => rb.1) ∧
      List.Sublist (((df.zip mask).filter fun rb => rb.2).map fun rb => rb.1) df ∧
      (((df.zip mask).filter fun rb => rb.2).map fun rb => rb.1).length ≤ df.length) := by
  refine ⟨fun f => rfl, fun v mask hv hlen => ?_⟩
  have hexec : PipelineStep.execute ⟨.validator v, nm⟩ df = .ok (maskSelect df mask) := by
    simp [PipelineStep.execute, Except.bind, hv, hlen]
  have hz := maskSelect_eq_zip_filter df mask
  have hsub := maskSelect_sublist df mask
  rw [← hz]
  exact ⟨hexec, hsub, hsub.length_le⟩

/-- C7 witness: a three-row dataset and the mask `[true, false, true]`. -/
theorem step_execute_contract_witness :
    PipelineStep.execute ⟨.validator fun _ => .ok [true, false, true], ""⟩ [10, 20, 30] =
      .ok (((([10, 20, 30] : List ℕ).zip [true, false, true]).filter
        fun rb => rb.2).map fun rb => rb.1) ∧
    List.Sublist (((([10, 20, 30] : List ℕ).zip [true, false, true]).filter
      fun rb => rb.2).map fun rb => rb.1) [10, 20, 30] ∧
    (((([10, 20, 30] : List ℕ).zip [true, false, true]).filter
      fun rb => rb.2).map fun rb => rb.1).length ≤ ([10, 20, 30] : List ℕ).length :=
  (step_execute_contract ℕ "" [10, 20, 30]).2
    (fun _ => .ok [true, false, true]) [true, false, true] rfl (by decide)

/-- C8: a filter step whose unit accepts the dataset with mask `m` (of the
input's length) shrinks the row count from `n` to the number of true entries
of `m`; and a row-wise deterministic filter is idempotent — its second run
returns the first run's output unchanged, because the second mask is all-true
on the already-filtered rows. -/
theorem filter_shrinkage_idempotent (Row : Type) (nm : String) :
    (∀ (v : List Row → Except String (List Bool)) (df : List Row) (m : List Bool),
      v df = .ok m → m.length = df.length →
      ∃ r, PipelineStep.execute ⟨.validator v, nm⟩ df = .ok r ∧
        r.length = m.count true) ∧
    (∀ (p : Row → Bool) (df r : List Row),
      PipelineStep.execute ⟨.validator fun d => .ok (d.map p), nm⟩ df = .ok r →
      PipelineStep.execute ⟨.validator fun d => .ok (d.map p), nm⟩ r = .ok r ∧
      r.map p = List.replicate r.length true) := by
  constructor
  · intro v df m hv hlen
    refine ⟨maskSelect df m, ?_, maskSelect_length_count df m hlen⟩
    simp [PipelineStep.execute, Except.bind, hv, hlen]
  · intro p df r hr
    have hdf : PipelineStep.execute ⟨.validator fun d => .ok (d.map p), nm⟩ df
        = .ok (df.filter p) := by
      simp [PipelineStep.execute, Except.bind, maskSelect_rowwise]
    rw [hdf] at hr
    have hr' : r = df.filter p := by
      cases hr
      rfl
    subst hr'
    have hsecond : PipelineStep.execute ⟨.validator fun d => .ok (d.map p), nm⟩
        (df.filter p) = .ok ((df.filter p).filter p) := by
      simp [PipelineStep.execute, Except.bind, maskSelect_rowwise]
    have hidem : (df.filter p).filter p = df.filter p := by
      rw [List.filter_filter]
      simp
    constructor
    · rw [hsecond, hidem]
    · rw [List.eq_replicate_iff]
      refine ⟨by simp, ?_⟩
      intro b hb
      obtain ⟨x, hx, hbx⟩ := List.mem_map.mp hb
      have := List.of_mem_filter hx
      rw [← hbx]
      exact this

/-- C8 witness: mask `[true, false, true]` shrinks 3 rows to 2; the row-wise
filter `n ≤ 2` applied to `[1, 3, 2]` yields `[1, 2]` and is idempotent. -/
theorem filter_shrinkage_idempotent_witness :
    (∃ r, PipelineStep.execute
        ⟨.validator fun _ => .ok [true, false, true], ""⟩ ([5, 6, 7] : List ℕ) = .ok r ∧
      r.length = [true, false, true].count true) ∧
    (PipelineStep.execute
        ⟨.validator fun d : List ℕ => .ok (d.map fun n => decide (n ≤ 2)), ""⟩ [1, 2] =
      .ok [1, 2] ∧
      ([1, 2] : List ℕ).map (fun n => decide (n ≤ 2)) =
        List.replicate ([1, 2] : List ℕ).length true) :=
  ⟨(filter_shrinkage_idempotent ℕ "").1
      (fun _ => .ok [true, false, true]) [5, 6, 7] [true, false, true] rfl (by decide),
    (filter_shrinkage_idempotent ℕ "").2
      (fun n => decide (n ≤ 2)) [1, 3, 2] [1, 2] rfl⟩

/-- C2 counterexample: with `max_error_rate` present but equal to `0`, an
observed error rate of `1/5` exceeds the allowed rate, yet `run` returns the
partial result instead of failing: `error_handling.get("max_error_rate")` is
a Python truthiness test, so a zero threshold disables the gate. -/
theorem error_rate_zero_threshold_ignored :
    (0 : ℚ) < ((100 : ℚ) - 80) / 100 ∧
    (gatePipeline.run 0 (List.range 100) (some 0)).1 = .ok (List.range 80) :=
  ⟨by norm_num, rfl⟩

/-- C2 (amended): for a call with `max_error_rate` set to a nonzero value and
a nonempty windowed input of `rows_in` rows whose executor pass returns
`rows_out` rows: if `(rows_in - rows_out) / rows_in` exceeds the threshold,
`run` fails with the dedicated error carrying the observed and allowed rates
and returns no result; otherwise `run` returns the output dataset. -/
theorem error_rate_gate (Row : Type) (p : Pipeline Row) (now : ℤ)
    (df0 : List Row) (mer : ℚ) (result : List Row) (hm : mer ≠ 0)
    (hex : p.executor.execute (p.windowed now df0) p.steps = .ok result)
    (hne : (p.windowed now df0).length ≠ 0) :
    (((((p.windowed now df0).length : ℚ) - (result.length : ℚ)) /
        ((p.windowed now df0).length : ℚ)) > mer →
      (p.run now df0 (some mer)).1 =
        .error (.errorRateExceeded
          ((((p.windowed now df0).length : ℚ) - (result.length : ℚ)) /
            ((p.windowed now df0).length : ℚ)) mer)) ∧
    (¬ ((((p.windowed now df0).length : ℚ) - (result.length : ℚ)) /
        ((p.windowed now df0).length : ℚ)) > mer →
      (p.run now df0 (some mer)).1 = .ok result) := by
  constructor
  · intro hgt
    simp only [Pipeline.run, hex, hm, hne, if_false, hgt, if_true, ite_false, ite_true]
  · intro hle
    simp only [Pipeline.run, hex, hm, hne, if_false, hle, ite_false, ite_true]

/-- C2 witness: `rows_in = 100`, a filter step leaving `rows_out = 80`:
with threshold `1/10` the run fails carrying observed rate
`(100 − 80)/100 = 1/5`, with threshold `1/4` it succeeds with 80 rows. -/
theorem error_rate_gate_witness :
    ((gatePipeline.run 0 (List.range 100) (some (1 / 10))).1 =
      .error (.errorRateExceeded
        ((((gatePipeline.windowed 0 (List.range 100)).length : ℚ) -
            (((List.range 80 : List ℕ)).length : ℚ)) /
          ((gatePipeline.windowed 0 (List.range 100)).length : ℚ)) (1 / 10))) ∧
    ((gatePipeline.run 0 (List.range 100) (some (1 / 4))).1 = .ok (List.range 80)) := by
  have hlen : (gatePipeline.windowed 0 (List.range 100)).length = 100 := rfl
  have h80 : ((List.range 80 : List ℕ)).length = 80 := by simp
  constructor
  · exact (error_rate_gate ℕ gatePipeline 0 (List.range 100) (1 / 10)
      (List.range 80) (by norm_num) rfl (by rw [hlen]; norm_num)).1
      (by rw [hlen, h80]; norm_num)
  · exact (error_rate_gate ℕ gatePipeline 0 (List.range 100) (1 / 4)
      (List.range 80) (by norm_num) rfl (by rw [hlen]; norm_num)).2
      (by rw [hlen, h80]; norm_num)

/-- C9: with an incremental window configured, `run` behaves exactly as the
same pipeline without a window run on the input restricted — before any step
executes — to the rows whose checkpoint value is at least `now − lookback`;
in particular the windowed row count is what the error-rate budget uses. -/
theorem incremental_window (Row : Type) (p : Pipeline Row)
    (cfg : IncrementalConfig Row) (now : ℤ) (df0 : List Row) (mer : Option ℚ)
    (h : p.incremental_config = some cfg) :
    p.windowed now df0 =
      df0.filter (fun r => now - cfg.lookback_days ≤ cfg.checkpoint r) ∧
    p.run now df0 mer =
      Pipeline.run ⟨p.steps, p.executor, p.metrics, none⟩ now
        (df0.filter fun r => now - cfg.lookback_days ≤ cfg.checkpoint r) mer := by
  have hw : p.windowed now df0 =
      df0.filter (fun r => now - cfg.lookback_days ≤ cfg.checkpoint r) := by
    unfold Pipeline.windowed
    rw [h]
  refine ⟨hw, ?_⟩
  simp only [Pipeline.run, Pipeline.windowed, h]

/-- C9 witness: rows with timestamps `today`, `today − 5d`, `today − 40d`
(`now = 0`) and a 30-day lookback: only the first two rows are processed. -/
theorem incremental_window_witness :
    incPipeline.windowed 0 [0, -5, -40] = [0, -5] ∧
    incPipeline.run 0 [0, -5, -40] none = noIncPipeline.run 0 [0, -5] none := by
  have h := incremental_window ℤ incPipeline ⟨fun r => r, 30⟩ 0 [0, -5, -40] none rfl
  constructor
  · rw [h.1]
    rfl
  · rw [h.2]
    rfl

/-- C10: when `max_error_rate` is set to a nonzero value and the windowed
input has zero rows (the executor having produced a result), the error-rate
computation divides by the input row count with no zero guard: `run` ends in
`ZeroDivisionError`, neither returning a result nor raising the dedicated
error-rate error. -/
theorem zero_rows_division_error (Row : Type) (p : Pipeline Row) (now : ℤ)
    (df0 : List Row) (mer : ℚ) (result : List Row) (hm : mer ≠ 0)
    (hempty : p.windowed now df0 = [])
    (hex : p.executor.execute (p.windowed now df0) p.steps = .ok result) :
    (p.run now df0 (some mer)).1 = .error .zeroDivisionError := by
  have hex' : p.executor.execute [] p.steps = .ok result := by
    rw [← hempty]
    exact hex
  simp [Pipeline.run, hempty, hex', hm]

/-- C10 witness: an empty dataset with `max_error_rate = 1/2`. -/
theorem zero_rows_division_error_witness :
    (emptyPipeline.run 0 [] (some (1 / 2))).1 = .error .zeroDivisionError :=
  zero_rows_division_error ℕ emptyPipeline 0 [] (1 / 2) [] (by norm_num) rfl rfl

end Cleen
